import Mathlib

/-!
A shallow embedding of `src/sharegpt_translation/translate.py`
(the ShareGPT translation pipeline of IndicTrans2).

Modelling choices:

* Python values are modelled by `Val`: strings, opaque atoms (carrying
  their Python truthiness), lists, and dicts.  A dict carries an
  object id `oid : Nat` so that aliasing between input and output
  records is expressible: two occurrences of a dict with the same
  `oid` denote the same Python object, and `d.copy()` allocates a
  fresh `oid` while keeping the entry list (a shallow copy).  Fresh
  ids are threaded through the functions as an allocation counter
  `nid`; every id handed out is the current counter value, and the
  counter only grows.
* Python exceptions are modelled by `Except String`; code after a
  raising expression is unreachable, exactly as in the source.
* The translation backend `model.batch_translate(·, src, tgt)` is an
  injected capability `Backend : List String → Except String (List String)`
  (the language codes are opaque to the pipeline and are dropped).
  Every invocation of the backend is logged in a `calls` field so
  that "the backend is invoked exactly once / never" is a statement
  about the run, not about syntax.
* The `tqdm` progress bar is a counter: `ticks` counts the
  `pbar.update(1)` executions, and `process_file` records the
  pre-computed `total` it was created with.
* Python `str.strip()` is `pyStrip` (drop whitespace at both ends),
  `str.split('\n')` is `String.splitOn "\n"`, and `'\n'.join` is
  `String.intercalate "\n"`.
-/

/-- A Python value as used by the pipeline: a string, an opaque atom
(with its truthiness), a list, or a dict with an object id and an
ordered entry list. -/
inductive Val where
  | s : String → Val
  | atom : Nat → Bool → Val
  | vlist : List Val → Val
  | dict : Nat → List (String × Val) → Val


/-- `d.get(k)` / `k in d` on a Python dict: first entry with key `k`. -/
def dictGet : List (String × Val) → String → Option Val
  | [], _ => none
  | (k', v') :: rest, k => if k' = k then some v' else dictGet rest k

/-- `d[k] = v` on a Python dict: replace in place if the key exists
(keeping its position), otherwise append at the end. -/
def dictSet : List (String × Val) → String → Val → List (String × Val)
  | [], k, v => [(k, v)]
  | (k', v') :: rest, k, v =>
      if k' = k then (k, v) :: rest else (k', v') :: dictSet rest k v

/-- Python truthiness of a value (`if msg.get('value'):`). -/
def pyTruthy : Val → Bool
  | .s str => str != ""
  | .atom _ b => b
  | .vlist l => !l.isEmpty
  | .dict _ e => !e.isEmpty

/-- Python `len(v)`: defined on strings, lists and dicts, a
`TypeError` on other values. -/
def pyLen : Val → Except String Nat
  | .s str => .ok str.length
  | .vlist l => .ok l.length
  | .dict _ e => .ok e.length
  | .atom _ _ => .error "TypeError"

/-- Python iteration `for x in v`: a list yields its elements, a
string its one-character strings, a dict its keys; an atom raises. -/
def pyIter : Val → Except String (List Val)
  | .vlist l => .ok l
  | .s str => .ok (str.data.map (fun c => Val.s c.toString))
  | .dict _ e => .ok (e.map (fun p => Val.s p.1))
  | .atom _ _ => .error "TypeError"

/-- Python `str.strip()`: remove whitespace from both ends
(`List.rdropWhile p l` is `(l.reverse.dropWhile p).reverse`). -/
def pyStrip (s : String) : String :=
  ⟨List.rdropWhile Char.isWhitespace (s.data.dropWhile Char.isWhitespace)⟩

/-- Python `value.split('\n')` on the character list: split at every
newline, keeping empty pieces (`''.split('\n') == ['']`). -/
def splitNlChars : List Char → List (List Char)
  | [] => [[]]
  | c :: rest =>
      match splitNlChars rest with
      | [] => [[c]]
      | h :: t => if c = '\n' then [] :: h :: t else (c :: h) :: t

/-- Python `value.split('\n')`. -/
def pySplitNl (s : String) : List String :=
  (splitNlChars s.data).map (fun cs => ⟨cs⟩)

/-- `[line.strip() for line in value.split('\n') if line.strip()]`
(filtering on `line.strip()` and yielding `line.strip()` is the same
as stripping first and keeping the non-empty results). -/
def nonBlankLines (s : String) : List String :=
  ((pySplitNl s).map pyStrip).filter (fun l => l != "")

/-- The backend capability `model.batch_translate`, already
specialised to the language pair; it may raise. -/
abbrev Backend := List String → Except String (List String)

/-- The body of the per-message loop in `translate_conversation`,
acting on the entry list of the (already shallow-copied) message:
decides whether and how `translated_value` is assigned, returning the
resulting entries (or the raised exception) together with the list of
backend invocations it made. -/
def msgStep (f : Backend) (entries : List (String × Val)) :
    Except String (List (String × Val)) × List (List String) :=
  match dictGet entries "value" with
  | some (.s str) =>
      if str == "" then (.ok entries, [])
      else
        let sentences := nonBlankLines str
        if sentences.isEmpty then
          (.ok (dictSet entries "translated_value" (.s "")), [])
        else
          match f sentences with
          | .ok translations =>
              (.ok (dictSet entries "translated_value"
                      (.s (String.intercalate "\n" translations))), [sentences])
          | .error er => (.error er, [sentences])
  | some v =>
      if pyTruthy v then (.error "AttributeError", []) else (.ok entries, [])
  | none => (.ok entries, [])

/-- Result of processing one message: the translated message (or the
exception), the allocation counter, and the backend calls made. -/
structure MOut where
  res : Except String Val
  nid : Nat
  calls : List (List String)


/-- One iteration of the loop of `translate_conversation`:
`translated_msg = msg.copy()` (a fresh dict id, shared entry list),
then the conditional assignment of `translated_value`.  A non-dict
message raises on `.copy()`. -/
def translateMsg (f : Backend) (msg : Val) (nid : Nat) : MOut :=
  match msg with
  | .dict _ entries =>
      match msgStep f entries with
      | (.ok e2, cs) => ⟨.ok (.dict nid e2), nid + 1, cs⟩
      | (.error er, cs) => ⟨.error er, nid, cs⟩
  | _ => ⟨.error "AttributeError", nid, []⟩

/-- Result of `translate_conversation`: the translated message list
(or the exception), the allocation counter, the backend calls, and
the number of progress-bar ticks (`pbar.update(1)` runs once after
each message is appended). -/
structure TOut where
  res : Except String (List Val)
  nid : Nat
  calls : List (List String)
  ticks : Nat


/-- `translate_conversation(model, conversation, ...)`: translate all
messages in order, ticking the progress bar once per message. -/
def translate_conversation (f : Backend) : List Val → Nat → TOut
  | [], nid => ⟨.ok [], nid, [], 0⟩
  | msg :: rest, nid =>
      match translateMsg f msg nid with
      | ⟨.error er, nid2, cs⟩ => ⟨.error er, nid2, cs, 0⟩
      | ⟨.ok tm, nid2, cs⟩ =>
          match translate_conversation f rest nid2 with
          | ⟨.error er, nid3, cs2, tk⟩ => ⟨.error er, nid3, cs ++ cs2, 1 + tk⟩
          | ⟨.ok tms, nid3, cs2, tk⟩ => ⟨.ok (tm :: tms), nid3, cs ++ cs2, 1 + tk⟩

/-- `len(item.get('conversations', []))` for one corpus item: zero
when the key is missing, `len` of the value when present; a non-dict
item raises on `.get`. -/
def itemMsgCount : Val → Except String Nat
  | .dict _ e =>
      match dictGet e "conversations" with
      | some v => pyLen v
      | none => .ok 0
  | _ => .error "AttributeError"

/-- `sum(len(item.get('conversations', [])) for item in data)`. -/
def totalMessages : List Val → Except String Nat
  | [] => .ok 0
  | item :: rest =>
      match itemMsgCount item with
      | .error er => .error er
      | .ok n =>
          match totalMessages rest with
          | .error er => .error er
          | .ok m => .ok (n + m)

/-- Result of the per-item loop of the list branch of `process_file`:
the output item list (or the exception), the allocation counter, the
backend calls, the progress ticks, and the number of
missing-`conversations` warnings printed. -/
structure LOut where
  res : Except String (List Val)
  nid : Nat
  calls : List (List String)
  ticks : Nat
  warnings : Nat


/-- The `for conv_item in data:` loop of the list branch of
`process_file`: an item containing `conversations` is translated and
rebuilt as `new_item = conv_item.copy(); new_item['conversations'] =
translated_conv`; an item lacking it is appended unchanged after a
warning.  (A non-dict item raises; the total-message computation has
already raised on such items, so this is unreachable in a run.) -/
def processItems (f : Backend) : List Val → Nat → LOut
  | [], nid => ⟨.ok [], nid, [], 0, 0⟩
  | item :: rest, nid =>
      match item with
      | .dict _ e =>
          match dictGet e "conversations" with
          | some cv =>
              match pyIter cv with
              | .error er => ⟨.error er, nid, [], 0, 0⟩
              | .ok msgs =>
                  match translate_conversation f msgs nid with
                  | ⟨.error er, nid2, cs, tk⟩ => ⟨.error er, nid2, cs, tk, 0⟩
                  | ⟨.ok tmsgs, nid2, cs, tk⟩ =>
                      match processItems f rest (nid2 + 1) with
                      | ⟨.error er, nid3, cs2, tk2, w⟩ =>
                          ⟨.error er, nid3, cs ++ cs2, tk + tk2, w⟩
                      | ⟨.ok out, nid3, cs2, tk2, w⟩ =>
                          ⟨.ok (Val.dict nid2 (dictSet e "conversations" (.vlist tmsgs)) :: out),
                            nid3, cs ++ cs2, tk + tk2, w⟩
          | none =>
              match processItems f rest nid with
              | ⟨.error er, nid3, cs2, tk2, w⟩ => ⟨.error er, nid3, cs2, tk2, w + 1⟩
              | ⟨.ok out, nid3, cs2, tk2, w⟩ => ⟨.ok (item :: out), nid3, cs2, tk2, w + 1⟩
      | _ => ⟨.error "TypeError", nid, [], 0, 0⟩

/-- Observable outcome of `process_file`: the returned value
(`none` = the "Unsupported data format" path returning `None`) or the
propagated exception; the content written to the output file, if any;
the backend calls; the final progress counter and its pre-computed
total; the warnings; and the allocation counter. -/
structure ProcOut where
  outcome : Except String (Option Val)
  written : Option Val
  calls : List (List String)
  counter : Nat
  total : Nat
  warnings : Nat
  nid : Nat


/-- `process_file(json_file_path, ...)` after the data has been
loaded: classify the shape of `data` and translate.  `hasOut` is
whether an output path was supplied; writing happens only after the
whole corpus has been translated. -/
def process_file (f : Backend) (data : Val) (hasOut : Bool) (nid : Nat) : ProcOut :=
  match data with
  | .vlist items =>
      match totalMessages items with
      | .error er => ⟨.error er, none, [], 0, 0, 0, nid⟩
      | .ok total =>
          match processItems f items nid with
          | ⟨.error er, nid2, cs, tk, w⟩ => ⟨.error er, none, cs, tk, total, w, nid2⟩
          | ⟨.ok out, nid2, cs, tk, w⟩ =>
              ⟨.ok (some (Val.vlist out)),
                if hasOut then some (Val.vlist out) else none,
                cs, tk, total, w, nid2⟩
  | .dict _ e =>
      match dictGet e "conversations" with
      | some cv =>
          match pyLen cv with
          | .error er => ⟨.error er, none, [], 0, 0, 0, nid⟩
          | .ok total =>
              match pyIter cv with
              | .error er => ⟨.error er, none, [], 0, total, 0, nid⟩
              | .ok msgs =>
                  match translate_conversation f msgs nid with
                  | ⟨.error er, nid2, cs, tk⟩ => ⟨.error er, none, cs, tk, total, 0, nid2⟩
                  | ⟨.ok tmsgs, nid2, cs, tk⟩ =>
                      ⟨.ok (some (Val.dict nid2 (dictSet e "conversations" (.vlist tmsgs)))),
                        if hasOut then
                          some (Val.dict nid2 (dictSet e "conversations" (.vlist tmsgs)))
                        else none,
                        cs, tk, total, 0, nid2 + 1⟩
      | none => ⟨.ok none, none, [], 0, 0, 0, nid⟩
  | _ => ⟨.ok none, none, [], 0, 0, 0, nid⟩

/-- Measure used to state the warning count: a ListShape item that is
a dict lacking the `conversations` key (the warning branch of
`process_file`). -/
def lacksConversations : Val → Bool
  | .dict _ e => (dictGet e "conversations").isNone
  | _ => false

mutual

/-- All dict object ids occurring in a value (the records reachable
from it).  Two values sharing an id denote the same Python object. -/
def oidsOf : Val → List Nat
  | .s _ => []
  | .atom _ _ => []
  | .vlist l => oidsOfList l
  | .dict o e => o :: oidsOfEntries e

/-- `oidsOf` over a list of values. -/
def oidsOfList : List Val → List Nat
  | [] => []
  | v :: vs => oidsOf v ++ oidsOfList vs

/-- `oidsOf` over the entry list of a dict. -/
def oidsOfEntries : List (String × Val) → List Nat
  | [] => []
  | (_, v) :: es => oidsOf v ++ oidsOfEntries es

end

/-- The claim "output records are never aliased to input records",
formalised for a run of `process_file`: whenever the run returns a
result, no object id in the result occurs among the input's object
ids.  (`C3` asserts this for every corpus; the pass-through branch
refutes it.) -/
def outputFreshFrom (f : Backend) (data : Val) (hasOut : Bool) (nid : Nat) : Prop :=
  ∀ res, (process_file f data hasOut nid).outcome = .ok (some res) →
    ∀ o, o ∈ oidsOf res → o ∉ oidsOf data

/-! ## Basic lemmas about the dict and string primitives -/

theorem dictGet_dictSet_self (e : List (String × Val)) (k : String) (v : Val) :
    dictGet (dictSet e k v) k = some v := by
  induction e with
  | nil => simp [dictGet, dictSet]
  | cons p rest ih =>
      obtain ⟨k', v'⟩ := p
      by_cases h : k' = k
      · simp [dictGet, dictSet, h]
      · simp [dictGet, dictSet, h, ih]

theorem dictGet_dictSet_ne (e : List (String × Val)) (k k' : String) (v : Val)
    (h : k' ≠ k) : dictGet (dictSet e k v) k' = dictGet e k' := by
  induction e with
  | nil => simp [dictGet, dictSet, Ne.symm h]
  | cons p rest ih =>
      obtain ⟨k₀, v₀⟩ := p
      by_cases h0 : k₀ = k
      · subst h0
        simp [dictGet, dictSet, Ne.symm h]
      · simp only [dictSet, if_neg h0, dictGet]
        by_cases h1 : k₀ = k'
        · rw [if_pos h1, if_pos h1]
        · rw [if_neg h1, if_neg h1, ih]

theorem pyStrip_idem (x : String) : pyStrip (pyStrip x) = pyStrip x := by
  unfold pyStrip
  set m := x.data.dropWhile Char.isWhitespace with hm
  set y := List.rdropWhile Char.isWhitespace m with hy
  have hmm : m.dropWhile Char.isWhitespace = m := by
    rw [hm]; exact List.dropWhile_idempotent _ _
  have hpre : y <+: m := by
    rw [hy]; exact List.rdropWhile_prefix _ _
  have hdy : y.dropWhile Char.isWhitespace = y := by
    rw [List.dropWhile_eq_self_iff]
    intro hl
    have hml : 0 < m.length := lt_of_lt_of_le hl hpre.length_le
    have h0 : m.get ⟨0, hml⟩ = y.get ⟨0, hl⟩ := by
      simpa using (hpre.getElem (by simpa using hl)).symm
    have := (List.dropWhile_eq_self_iff).mp hmm hml
    rw [h0] at this
    exact this
  have hry : List.rdropWhile Char.isWhitespace y = y := by
    rw [hy]; exact List.rdropWhile_idempotent _ _
  simp only [String.data]
  rw [hdy, hry]

theorem mem_nonBlankLines_stripped (s : String) (l : String)
    (h : l ∈ nonBlankLines s) : pyStrip l = l ∧ l ≠ "" := by
  unfold nonBlankLines at h
  have h1 := List.of_mem_filter h
  have h2 := List.mem_of_mem_filter h
  obtain ⟨x, _, hx⟩ := List.mem_map.mp h2
  constructor
  · rw [← hx]; exact pyStrip_idem x
  · simpa using h1

theorem pyIter_pyLen (v : Val) (l : List Val) (h : pyIter v = .ok l) :
    pyLen v = .ok l.length := by
  cases v with
  | s str =>
      simp only [pyIter, Except.ok.injEq] at h
      subst h
      simp only [pyLen, List.length_map, Except.ok.injEq]
      rfl
  | atom i b => simp [pyIter] at h
  | vlist xs =>
      simp only [pyIter, Except.ok.injEq] at h
      subst h
      rfl
  | dict o e =>
      simp only [pyIter, Except.ok.injEq] at h
      subst h
      simp [pyLen]

/-! ## Lemmas about the per-message step -/

theorem translateMsg_no_value (f : Backend) (o : Nat) (entries : List (String × Val))
    (nid : Nat) (h : dictGet entries "value" = none) :
    translateMsg f (.dict o entries) nid = ⟨.ok (.dict nid entries), nid + 1, []⟩ := by
  simp only [translateMsg, msgStep, h]

theorem translateMsg_empty_value (f : Backend) (o : Nat) (entries : List (String × Val))
    (nid : Nat) (h : dictGet entries "value" = some (.s "")) :
    translateMsg f (.dict o entries) nid = ⟨.ok (.dict nid entries), nid + 1, []⟩ := by
  simp only [translateMsg, msgStep, h]
  simp

theorem translateMsg_blank_value (f : Backend) (o : Nat) (entries : List (String × Val))
    (nid : Nat) (str : String) (h : dictGet entries "value" = some (.s str))
    (hne : str ≠ "") (hb : nonBlankLines str = []) :
    translateMsg f (.dict o entries) nid =
      ⟨.ok (.dict nid (dictSet entries "translated_value" (.s ""))), nid + 1, []⟩ := by
  simp only [translateMsg, msgStep, h]
  simp [hne, hb]

theorem translateMsg_backend_ok (f : Backend) (o : Nat) (entries : List (String × Val))
    (nid : Nat) (str : String) (ts : List String)
    (h : dictGet entries "value" = some (.s str)) (hb : nonBlankLines str ≠ [])
    (hf : f (nonBlankLines str) = .ok ts) :
    translateMsg f (.dict o entries) nid =
      ⟨.ok (.dict nid (dictSet entries "translated_value"
          (.s (String.intercalate "\n" ts)))), nid + 1, [nonBlankLines str]⟩ := by
  have hne : str ≠ "" := by
    intro he
    subst he
    exact hb rfl
  simp only [translateMsg, msgStep, h]
  simp [hne, hb, hf, List.isEmpty_iff]

theorem translateMsg_backend_error (f : Backend) (o : Nat) (entries : List (String × Val))
    (nid : Nat) (str : String) (er : String)
    (h : dictGet entries "value" = some (.s str)) (hb : nonBlankLines str ≠ [])
    (hf : f (nonBlankLines str) = .error er) :
    translateMsg f (.dict o entries) nid = ⟨.error er, nid, [nonBlankLines str]⟩ := by
  have hne : str ≠ "" := by
    intro he
    subst he
    exact hb rfl
  simp only [translateMsg, msgStep, h]
  simp [hne, hb, hf, List.isEmpty_iff]

theorem translateMsg_ok_inv (f : Backend) (msg : Val) (nid : Nat) (v : Val)
    (h : (translateMsg f msg nid).res = .ok v) :
    ∃ o entries e2, msg = .dict o entries ∧
      msgStep f entries = (.ok e2, (translateMsg f msg nid).calls) ∧
      v = .dict nid e2 ∧ (translateMsg f msg nid).nid = nid + 1 := by
  cases msg with
  | s str => simp [translateMsg] at h
  | atom i b => simp [translateMsg] at h
  | vlist l => simp [translateMsg] at h
  | dict o entries =>
      rcases hm : msgStep f entries with ⟨r, cs⟩
      cases r with
      | error er =>
          simp only [translateMsg, hm] at h
          simp at h
      | ok e2 =>
          have hc : (translateMsg f (Val.dict o entries) nid).calls = cs := by
            simp [translateMsg, hm]
          have hn : (translateMsg f (Val.dict o entries) nid).nid = nid + 1 := by
            simp [translateMsg, hm]
          simp only [translateMsg, hm] at h
          simp only [Except.ok.injEq] at h
          exact ⟨o, entries, e2, rfl, by rw [hc, hm], h.symm, hn⟩

theorem msgStep_ok_preserves (f : Backend) (entries e2 : List (String × Val))
    (cs : List (List String)) (h : msgStep f entries = (.ok e2, cs))
    (k : String) (hk : k ≠ "translated_value") : dictGet e2 k = dictGet entries k := by
  simp only [msgStep] at h
  split at h
  · split at h
    · simp only [Prod.mk.injEq, Except.ok.injEq] at h
      rw [h.1]
    · split at h
      · simp only [Prod.mk.injEq, Except.ok.injEq] at h
        rw [← h.1]
        exact dictGet_dictSet_ne entries "translated_value" k (.s "") hk
      · split at h
        · simp only [Prod.mk.injEq, Except.ok.injEq] at h
          rw [← h.1]
          exact dictGet_dictSet_ne entries "translated_value" k _ hk
        · simp at h
  · split at h
    · simp at h
    · simp only [Prod.mk.injEq, Except.ok.injEq] at h
      rw [h.1]
  · simp only [Prod.mk.injEq, Except.ok.injEq] at h
    rw [h.1]

/-! ## Structure of a successful `translate_conversation` run -/

theorem tc_ok_spec (f : Backend) (msgs : List Val) (nid : Nat) (out : List Val)
    (h : (translate_conversation f msgs nid).res = .ok out) :
    out.length = msgs.length ∧
    (translate_conversation f msgs nid).nid = nid + msgs.length ∧
    (translate_conversation f msgs nid).ticks = msgs.length ∧
    ∀ j m, msgs.get? j = some m →
      out.get? j = ((translateMsg f m (nid + j)).res).toOption := by
  induction msgs generalizing nid out with
  | nil =>
      simp only [translate_conversation, Except.ok.injEq] at h
      subst h
      refine ⟨rfl, by simp [translate_conversation], by simp [translate_conversation], ?_⟩
      intro j m hm
      simp at hm
  | cons msg rest ih =>
      rcases hm : translateMsg f msg nid with ⟨mres, nid2, cs⟩
      cases mres with
      | error er =>
          simp only [translate_conversation, hm] at h
          exact Except.noConfusion h
      | ok tm =>
          rcases ht : translate_conversation f rest nid2 with ⟨tres, nid3, cs2, tk⟩
          cases tres with
          | error er =>
              simp only [translate_conversation, hm, ht] at h
              exact Except.noConfusion h
          | ok tms =>
              have hout : out = tm :: tms := by
                simp only [translate_conversation, hm, ht] at h
                simpa using h.symm
              subst hout
              have hn2 : nid2 = nid + 1 := by
                obtain ⟨_, _, _, _, _, _, hnn⟩ :=
                  translateMsg_ok_inv f msg nid tm (by rw [hm])
                rw [hm] at hnn
                exact hnn
              obtain ⟨ihlen, ihnid, ihticks, ihpt⟩ := ih nid2 tms (by rw [ht])
              have hnid3 : nid3 = nid2 + rest.length := by
                rw [ht] at ihnid
                simpa using ihnid
              have htk : tk = rest.length := by
                rw [ht] at ihticks
                simpa using ihticks
              refine ⟨by simp [ihlen], ?_, ?_, ?_⟩
              · simp only [translate_conversation, hm, ht, List.length_cons]
                omega
              · simp only [translate_conversation, hm, ht, List.length_cons]
                omega
              · intro j m hjm
                cases j with
                | zero =>
                    simp only [List.get?] at hjm
                    obtain rfl : msg = m := by injection hjm
                    simp only [List.get?, Nat.add_zero, hm]
                    rfl
                | succ j =>
                    simp only [List.get?] at hjm ⊢
                    rw [show nid + (j + 1) = nid2 + j by omega]
                    exact ihpt j m hjm

/-! ## Structure of a successful list-shape loop -/

theorem processItems_ok_spec (f : Backend) (items : List Val) (nid : Nat) (out : List Val)
    (h : (processItems f items nid).res = .ok out) :
    out.length = items.length ∧
    nid ≤ (processItems f items nid).nid ∧
    ∀ i item, items.get? i = some item →
      ∃ o e, item = .dict o e ∧
        ((dictGet e "conversations" = none ∧ out.get? i = some item) ∨
         (∃ cv msgs n, dictGet e "conversations" = some cv ∧
            nid ≤ n ∧ pyIter cv = .ok msgs ∧
            ∃ tmsgs, (translate_conversation f msgs n).res = .ok tmsgs ∧
              out.get? i = some (.dict (n + msgs.length)
                (dictSet e "conversations" (.vlist tmsgs))))) := by
  induction items generalizing nid out with
  | nil =>
      simp only [processItems, Except.ok.injEq] at h
      subst h
      refine ⟨rfl, by simp [processItems], ?_⟩
      intro i item hi
      simp at hi
  | cons item rest ih =>
      cases item with
      | s str => simp only [processItems] at h; exact Except.noConfusion h
      | atom a b => simp only [processItems] at h; exact Except.noConfusion h
      | vlist l => simp only [processItems] at h; exact Except.noConfusion h
      | dict o e =>
          cases hcv : dictGet e "conversations" with
          | none =>
              rcases hr : processItems f rest nid with ⟨rres, nid3, cs2, tk2, w⟩
              cases rres with
              | error er =>
                  simp only [processItems, hcv, hr] at h
                  exact Except.noConfusion h
              | ok outr =>
                  have hout : out = Val.dict o e :: outr := by
                    simp only [processItems, hcv, hr] at h
                    simpa using h.symm
                  subst hout
                  obtain ⟨ihlen, ihnid, ihpt⟩ := ih nid outr (by rw [hr])
                  rw [hr] at ihnid
                  refine ⟨by simp [ihlen], ?_, ?_⟩
                  · simp only [processItems, hcv, hr]
                    simpa using ihnid
                  · intro i it hi
                    cases i with
                    | zero =>
                        simp only [List.get?] at hi
                        obtain rfl : Val.dict o e = it := by injection hi
                        exact ⟨o, e, rfl, Or.inl ⟨hcv, rfl⟩⟩
                    | succ i =>
                        simp only [List.get?] at hi ⊢
                        exact ihpt i it hi
          | some cv =>
              cases hit : pyIter cv with
              | error er =>
                  simp only [processItems, hcv, hit] at h
                  exact Except.noConfusion h
              | ok msgs =>
                  rcases htc : translate_conversation f msgs nid with ⟨tres, nid2, cs, tk⟩
                  cases tres with
                  | error er =>
                      simp only [processItems, hcv, hit, htc] at h
                      exact Except.noConfusion h
                  | ok tmsgs =>
                      rcases hr : processItems f rest (nid2 + 1) with ⟨rres, nid3, cs2, tk2, w⟩
                      cases rres with
                      | error er =>
                          simp only [processItems, hcv, hit, htc, hr] at h
                          exact Except.noConfusion h
                      | ok outr =>
                          have hn2 : nid2 = nid + msgs.length := by
                            obtain ⟨_, hnn, _, _⟩ := tc_ok_spec f msgs nid tmsgs (by rw [htc])
                            rw [htc] at hnn
                            simpa using hnn
                          have hout :
                              out = Val.dict nid2 (dictSet e "conversations" (.vlist tmsgs))
                                :: outr := by
                            simp only [processItems, hcv, hit, htc, hr] at h
                            simpa using h.symm
                          subst hout
                          obtain ⟨ihlen, ihnid, ihpt⟩ := ih (nid2 + 1) outr (by rw [hr])
                          rw [hr] at ihnid
                          refine ⟨by simp [ihlen], ?_, ?_⟩
                          · simp only [processItems, hcv, hit, htc, hr]
                            simp only at ihnid
                            omega
                          · intro i it hi
                            cases i with
                            | zero =>
                                simp only [List.get?] at hi
                                obtain rfl : Val.dict o e = it := by injection hi
                                refine ⟨o, e, rfl, Or.inr ⟨cv, msgs, nid, hcv, le_refl nid,
                                  hit, tmsgs, by rw [htc], ?_⟩⟩
                                simp [hn2]
                            | succ i =>
                                simp only [List.get?] at hi ⊢
                                obtain ⟨o', e', hde, hcase⟩ := ihpt i it hi
                                refine ⟨o', e', hde, ?_⟩
                                cases hcase with
                                | inl hl => exact Or.inl hl
                                | inr hrr =>
                                    obtain ⟨cv', msgs', n', a1, a2, a3, tms', a4, a5⟩ := hrr
                                    exact Or.inr ⟨cv', msgs', n', a1, by omega, a3, tms', a4, a5⟩

theorem processItems_ticks_eq_total (f : Backend) (items : List Val) (nid T : Nat)
    (hT : totalMessages items = .ok T) (out : List Val)
    (h : (processItems f items nid).res = .ok out) :
    (processItems f items nid).ticks = T := by
  induction items generalizing nid T out with
  | nil =>
      simp only [totalMessages, Except.ok.injEq] at hT
      subst hT
      simp [processItems]
  | cons item rest ih =>
      cases item with
      | s str => simp only [processItems] at h; exact Except.noConfusion h
      | atom a b => simp only [processItems] at h; exact Except.noConfusion h
      | vlist l => simp only [processItems] at h; exact Except.noConfusion h
      | dict o e =>
          cases hcv : dictGet e "conversations" with
          | none =>
              cases hTr : totalMessages rest with
              | error er =>
                  simp only [totalMessages, itemMsgCount, hcv, hTr] at hT
                  exact Except.noConfusion hT
              | ok Tr =>
                  have hTT : T = Tr := by
                    simp only [totalMessages, itemMsgCount, hcv, hTr,
                      Except.ok.injEq] at hT
                    omega
                  rcases hr : processItems f rest nid with ⟨rres, nid3, cs2, tk2, w⟩
                  cases rres with
                  | error er =>
                      simp only [processItems, hcv, hr] at h
                      exact Except.noConfusion h
                  | ok outr =>
                      have := ih nid Tr hTr outr (by rw [hr])
                      rw [hr] at this
                      simp only [processItems, hcv, hr]
                      simp only at this
                      simpa [hTT] using this
          | some cv =>
              cases hit : pyIter cv with
              | error er =>
                  simp only [processItems, hcv, hit] at h
                  exact Except.noConfusion h
              | ok msgs =>
                  have hpl : pyLen cv = .ok msgs.length := pyIter_pyLen cv msgs hit
                  cases hTr : totalMessages rest with
                  | error er =>
                      simp only [totalMessages, itemMsgCount, hcv, hpl, hTr] at hT
                      exact Except.noConfusion hT
                  | ok Tr =>
                      have hTT : T = msgs.length + Tr := by
                        simp only [totalMessages, itemMsgCount, hcv, hpl, hTr,
                          Except.ok.injEq] at hT
                        omega
                      rcases htc : translate_conversation f msgs nid with ⟨tres, nid2, cs, tk⟩
                      cases tres with
                      | error er =>
                          simp only [processItems, hcv, hit, htc] at h
                          exact Except.noConfusion h
                      | ok tmsgs =>
                          have htk : tk = msgs.length := by
                            obtain ⟨_, _, htt, _⟩ :=
                              tc_ok_spec f msgs nid tmsgs (by rw [htc])
                            rw [htc] at htt
                            simpa using htt
                          rcases hr : processItems f rest (nid2 + 1)
                            with ⟨rres, nid3, cs2, tk2, w⟩
                          cases rres with
                          | error er =>
                              simp only [processItems, hcv, hit, htc, hr] at h
                              exact Except.noConfusion h
                          | ok outr =>
                              have := ih (nid2 + 1) Tr hTr outr (by rw [hr])
                              rw [hr] at this
                              simp only [processItems, hcv, hit, htc, hr]
                              simp only at this
                              omega

theorem processItems_warnings_count (f : Backend) (items : List Val) (nid : Nat)
    (out : List Val) (h : (processItems f items nid).res = .ok out) :
    (processItems f items nid).warnings = items.countP lacksConversations := by
  induction items generalizing nid out with
  | nil => simp [processItems]
  | cons item rest ih =>
      cases item with
      | s str => simp only [processItems] at h; exact Except.noConfusion h
      | atom a b => simp only [processItems] at h; exact Except.noConfusion h
      | vlist l => simp only [processItems] at h; exact Except.noConfusion h
      | dict o e =>
          cases hcv : dictGet e "conversations" with
          | none =>
              rcases hr : processItems f rest nid with ⟨rres, nid3, cs2, tk2, w⟩
              cases rres with
              | error er =>
                  simp only [processItems, hcv, hr] at h
                  exact Except.noConfusion h
              | ok outr =>
                  have := ih nid outr (by rw [hr])
                  rw [hr] at this
                  simp only at this
                  simp only [processItems, hcv, hr, List.countP_cons,
                    lacksConversations, Option.isNone]
                  simp [this]
          | some cv =>
              cases hit : pyIter cv with
              | error er =>
                  simp only [processItems, hcv, hit] at h
                  exact Except.noConfusion h
              | ok msgs =>
                  rcases htc : translate_conversation f msgs nid with ⟨tres, nid2, cs, tk⟩
                  cases tres with
                  | error er =>
                      simp only [processItems, hcv, hit, htc] at h
                      exact Except.noConfusion h
                  | ok tmsgs =>
                      rcases hr : processItems f rest (nid2 + 1)
                        with ⟨rres, nid3, cs2, tk2, w⟩
                      cases rres with
                      | error er =>
                          simp only [processItems, hcv, hit, htc, hr] at h
                          exact Except.noConfusion h
                      | ok outr =>
                          have := ih (nid2 + 1) outr (by rw [hr])
                          rw [hr] at this
                          simp only at this
                          simp only [processItems, hcv, hit, htc, hr, List.countP_cons,
                            lacksConversations, Option.isNone]
                          simp [this]

/-! ## Whole-run correspondence -/

theorem run_list_correspondence (f : Backend) (items : List Val) (hasOut : Bool)
    (nid : Nat) (res : Val)
    (h : (process_file f (.vlist items) hasOut nid).outcome = .ok (some res)) :
    ∃ out, res = .vlist out ∧ out.length = items.length ∧
      ∀ i item, items.get? i = some item → ∃ o e, item = .dict o e ∧
        ((dictGet e "conversations" = none ∧ out.get? i = some item) ∨
         (∃ cv msgs n tmsgs, dictGet e "conversations" = some cv ∧ nid ≤ n ∧
            pyIter cv = .ok msgs ∧
            (translate_conversation f msgs n).res = .ok tmsgs ∧
            out.get? i = some (.dict (n + msgs.length)
              (dictSet e "conversations" (.vlist tmsgs))) ∧
            tmsgs.length = msgs.length ∧
            ∀ j m, msgs.get? j = some m →
              tmsgs.get? j = ((translateMsg f m (n + j)).res).toOption)) := by
  cases hT : totalMessages items with
  | error er =>
      simp only [process_file, hT] at h
      exact Except.noConfusion h
  | ok T =>
      rcases hr : processItems f items nid with ⟨rres, nid2, cs, tk, w⟩
      cases rres with
      | error er =>
          simp only [process_file, hT, hr] at h
          exact Except.noConfusion h
      | ok out =>
          have hres : res = .vlist out := by
            simp only [process_file, hT, hr] at h
            simpa using h.symm
          subst hres
          obtain ⟨hlen, _, hpt⟩ := processItems_ok_spec f items nid out (by rw [hr])
          refine ⟨out, rfl, hlen, ?_⟩
          intro i item hi
          obtain ⟨o, e, hde, hcase⟩ := hpt i item hi
          refine ⟨o, e, hde, ?_⟩
          cases hcase with
          | inl hl => exact Or.inl hl
          | inr hrr =>
              obtain ⟨cv, msgs, n, a1, a2, a3, tmsgs, a4, a5⟩ := hrr
              obtain ⟨blen, _, _, bpt⟩ := tc_ok_spec f msgs n tmsgs a4
              exact Or.inr ⟨cv, msgs, n, tmsgs, a1, a2, a3, a4, a5, blen, bpt⟩

theorem run_single_correspondence (f : Backend) (o : Nat) (e : List (String × Val))
    (hasOut : Bool) (nid : Nat) (res : Val)
    (h : (process_file f (.dict o e) hasOut nid).outcome = .ok (some res)) :
    ∃ cv msgs tmsgs, dictGet e "conversations" = some cv ∧ pyIter cv = .ok msgs ∧
      (translate_conversation f msgs nid).res = .ok tmsgs ∧
      res = .dict (nid + msgs.length) (dictSet e "conversations" (.vlist tmsgs)) ∧
      tmsgs.length = msgs.length ∧
      ∀ j m, msgs.get? j = some m →
        tmsgs.get? j = ((translateMsg f m (nid + j)).res).toOption := by
  cases hcv : dictGet e "conversations" with
  | none =>
      simp only [process_file, hcv] at h
      simp at h
  | some cv =>
      cases hpl : pyLen cv with
      | error er =>
          simp only [process_file, hcv, hpl] at h
          exact Except.noConfusion h
      | ok T =>
          cases hit : pyIter cv with
          | error er =>
              simp only [process_file, hcv, hpl, hit] at h
              exact Except.noConfusion h
          | ok msgs =>
              rcases htc : translate_conversation f msgs nid with ⟨tres, nid2, cs, tk⟩
              cases tres with
              | error er =>
                  simp only [process_file, hcv, hpl, hit, htc] at h
                  exact Except.noConfusion h
              | ok tmsgs =>
                  have hn2 : nid2 = nid + msgs.length := by
                    obtain ⟨_, hnn, _, _⟩ := tc_ok_spec f msgs nid tmsgs (by rw [htc])
                    rw [htc] at hnn
                    simpa using hnn
                  have hres : res = .dict nid2 (dictSet e "conversations" (.vlist tmsgs)) := by
                    simp only [process_file, hcv, hpl, hit, htc] at h
                    simpa using h.symm
                  obtain ⟨blen, _, _, bpt⟩ := tc_ok_spec f msgs nid tmsgs (by rw [htc])
                  exact ⟨cv, msgs, tmsgs, rfl, hit, by rw [htc], by rw [hres, hn2],
                    blen, bpt⟩

/-! ## Claims -/

/-- C1 counterexample: a message whose `value` is the empty string is
copied into the output with NO `translated_value` field at all (the
`if msg.get('value'):` guard is falsy, so the assignment is skipped),
contradicting the claim that `translated_value` is set to the empty
string for such messages.  The backend is indeed never invoked. -/
theorem C1_counterexample :
    (translate_conversation (fun l => .ok l) [Val.dict 0 [("value", Val.s "")]] 1).res
        = .ok [Val.dict 1 [("value", Val.s "")]] ∧
    dictGet [("value", Val.s "")] "translated_value" = none ∧
    (translate_conversation (fun l => .ok l) [Val.dict 0 [("value", Val.s "")]] 1).calls
        = [] :=
  ⟨rfl, rfl, rfl⟩

/-- C1 (amended): a processed message whose `value` is a non-empty
string always gets `translated_value` (the empty string when all its
lines are blank, with the backend not invoked); a message whose
`value` is absent or the empty string is copied with its entries
unchanged — no `translated_value` is added — and the backend is not
invoked for it either. -/
theorem C1_amended (f : Backend) (o nid : Nat) (entries : List (String × Val)) :
    (∀ str, dictGet entries "value" = some (.s str) → str ≠ "" →
      nonBlankLines str = [] →
        translateMsg f (.dict o entries) nid =
          ⟨.ok (.dict nid (dictSet entries "translated_value" (.s ""))), nid + 1, []⟩ ∧
        dictGet (dictSet entries "translated_value" (.s "")) "translated_value"
          = some (.s "")) ∧
    (∀ str ts, dictGet entries "value" = some (.s str) → nonBlankLines str ≠ [] →
      f (nonBlankLines str) = .ok ts →
        ∃ e2, (translateMsg f (.dict o entries) nid).res = .ok (.dict nid e2) ∧
          dictGet e2 "translated_value"
            = some (.s (String.intercalate "\n" ts))) ∧
    (dictGet entries "value" = none →
      translateMsg f (.dict o entries) nid = ⟨.ok (.dict nid entries), nid + 1, []⟩) ∧
    (dictGet entries "value" = some (.s "") →
      translateMsg f (.dict o entries) nid = ⟨.ok (.dict nid entries), nid + 1, []⟩) :=
  ⟨fun str hv hne hb =>
      ⟨translateMsg_blank_value f o entries nid str hv hne hb,
       dictGet_dictSet_self entries "translated_value" (.s "")⟩,
   fun str ts hv hb hf => by
      rw [translateMsg_backend_ok f o entries nid str ts hv hb hf]
      exact ⟨dictSet entries "translated_value" (.s (String.intercalate "\n" ts)),
        rfl, dictGet_dictSet_self entries "translated_value" _⟩,
   fun hv => translateMsg_no_value f o entries nid hv,
   fun hv => translateMsg_empty_value f o entries nid hv⟩

/-- Witness for C1 (amended): a blank-lines-only value yields
`translated_value = ""` with no backend call, and a non-blank value
yields a message whose `translated_value` holds the backend's output. -/
theorem C1_amended_witness :
    (translateMsg (fun l => .ok l) (.dict 0 [("value", Val.s " \n ")]) 1 =
      ⟨.ok (.dict 1 [("value", Val.s " \n "), ("translated_value", Val.s "")]), 2, []⟩) ∧
    (∃ e2, (translateMsg (fun l => .ok l) (.dict 0 [("value", Val.s "Hi")]) 1).res
        = .ok (.dict 1 e2) ∧
      dictGet e2 "translated_value" = some (.s "Hi")) :=
  ⟨((C1_amended (fun l => .ok l) 0 1 [("value", Val.s " \n ")]).1
      " \n " rfl (by decide) rfl).1,
   (C1_amended (fun l => .ok l) 0 1 [("value", Val.s "Hi")]).2.1
      "Hi" ["Hi"] rfl (by decide) rfl⟩

/-- C2: a message with k > 0 non-blank lines causes exactly one
backend invocation, carrying exactly the k non-blank lines; assuming
the backend returns a same-length list, `translated_value` is those k
returned lines joined with newline separators, in submission order. -/
theorem C2_backend_once_k_lines (f : Backend) (o nid k : Nat)
    (entries : List (String × Val)) (str : String) (ts : List String)
    (hv : dictGet entries "value" = some (.s str))
    (hk : (nonBlankLines str).length = k) (hk0 : 0 < k)
    (hf : f (nonBlankLines str) = .ok ts) (hts : ts.length = k) :
    (translateMsg f (.dict o entries) nid).calls = [nonBlankLines str] ∧
    ∃ e2, (translateMsg f (.dict o entries) nid).res = .ok (.dict nid e2) ∧
      dictGet e2 "translated_value" = some (.s (String.intercalate "\n" ts)) ∧
      ts.length = k := by
  have hb : nonBlankLines str ≠ [] := by
    intro hnil
    rw [hnil] at hk
    simp at hk
    omega
  rw [translateMsg_backend_ok f o entries nid str ts hv hb hf]
  exact ⟨rfl, dictSet entries "translated_value" (.s (String.intercalate "\n" ts)),
    rfl, dictGet_dictSet_self entries "translated_value" _, hts⟩

/-- Witness for C2 at the spec's Example 1 message. -/
theorem C2_witness :
    (translateMsg (fun l => .ok l) (.dict 0 [("value", Val.s "Hello\nWorld")]) 5).calls
        = [["Hello", "World"]] ∧
    ∃ e2, (translateMsg (fun l => .ok l)
        (.dict 0 [("value", Val.s "Hello\nWorld")]) 5).res = .ok (.dict 5 e2) ∧
      dictGet e2 "translated_value" = some (.s "Hello\nWorld") ∧
      (["Hello", "World"] : List String).length = 2 :=
  C2_backend_once_k_lines (fun l => .ok l) 0 5 2 [("value", Val.s "Hello\nWorld")]
    "Hello\nWorld" ["Hello", "World"] rfl rfl (by omega) rfl rfl

/-- C10: whenever a message triggers a backend call, the submitted
batch is exactly the whitespace-stripped non-blank lines of its
value: every submitted line is already stripped (stripping it again
changes nothing) and non-empty. -/
theorem C10_trimmed_submission (f : Backend) (o nid : Nat)
    (entries : List (String × Val)) (str : String)
    (hv : dictGet entries "value" = some (.s str))
    (hb : nonBlankLines str ≠ []) :
    (translateMsg f (.dict o entries) nid).calls = [nonBlankLines str] ∧
    ∀ l ∈ nonBlankLines str, pyStrip l = l ∧ l ≠ "" := by
  constructor
  · cases hf : f (nonBlankLines str) with
    | ok ts => rw [translateMsg_backend_ok f o entries nid str ts hv hb hf]
    | error er => rw [translateMsg_backend_error f o entries nid str er hv hb hf]
  · intro l hl
    exact mem_nonBlankLines_stripped str l hl

/-- Witness for C10: surrounding whitespace is stripped before
submission. -/
theorem C10_witness :
    (translateMsg (fun l => .ok l)
        (.dict 0 [("value", Val.s "  Hello \n World  ")]) 3).calls
      = [["Hello", "World"]] ∧
    ∀ l ∈ nonBlankLines "  Hello \n World  ", pyStrip l = l ∧ l ≠ "" :=
  C10_trimmed_submission (fun l => .ok l) 0 3
    [("value", Val.s "  Hello \n World  ")] "  Hello \n World  " rfl (by decide)

/-- C4: whenever `process_file` completes without raising, the final
progress counter equals the pre-computed total
`sum(len(item.get('conversations', [])))` (for a list corpus; the
message count for a single one), independently of how many backend
calls were made: the bar ticks once per message, including messages
that skipped the backend. -/
theorem C4_progress_total (f : Backend) (data : Val) (hasOut : Bool) (nid : Nat)
    (r : Option Val) (h : (process_file f data hasOut nid).outcome = .ok r) :
    (process_file f data hasOut nid).counter = (process_file f data hasOut nid).total ∧
    (∀ items, data = .vlist items →
      totalMessages items = .ok (process_file f data hasOut nid).total) := by
  cases data with
  | s str =>
      refine ⟨rfl, ?_⟩
      intro items hit
      exact Val.noConfusion hit
  | atom a b =>
      refine ⟨rfl, ?_⟩
      intro items hit
      exact Val.noConfusion hit
  | vlist items =>
      cases hT : totalMessages items with
      | error er =>
          simp only [process_file, hT] at h
          exact Except.noConfusion h
      | ok T =>
          rcases hr : processItems f items nid with ⟨rres, nid2, cs, tk, w⟩
          cases rres with
          | error er =>
              simp only [process_file, hT, hr] at h
              exact Except.noConfusion h
          | ok out =>
              have htk : tk = T := by
                have := processItems_ticks_eq_total f items nid T hT out (by rw [hr])
                rw [hr] at this
                simpa using this
              constructor
              · simp only [process_file, hT, hr]
                exact htk
              · intro items2 hit
                obtain rfl : items = items2 := by injection hit
                simp only [process_file, hT, hr]
  | dict o e =>
      cases hcv : dictGet e "conversations" with
      | none =>
          refine ⟨by simp only [process_file, hcv], ?_⟩
          intro items hit
          exact Val.noConfusion hit
      | some cv =>
          cases hpl : pyLen cv with
          | error er =>
              simp only [process_file, hcv, hpl] at h
              exact Except.noConfusion h
          | ok T =>
              cases hit : pyIter cv with
              | error er =>
                  simp only [process_file, hcv, hpl, hit] at h
                  exact Except.noConfusion h
              | ok msgs =>
                  rcases htc : translate_conversation f msgs nid with ⟨tres, nid2, cs, tk⟩
                  cases tres with
                  | error er =>
                      simp only [process_file, hcv, hpl, hit, htc] at h
                      exact Except.noConfusion h
                  | ok tmsgs =>
                      have hTm : T = msgs.length := by
                        have := pyIter_pyLen cv msgs hit
                        rw [hpl] at this
                        injection this with hh
                      have htk : tk = msgs.length := by
                        obtain ⟨_, _, htt, _⟩ := tc_ok_spec f msgs nid tmsgs (by rw [htc])
                        rw [htc] at htt
                        simpa using htt
                      constructor
                      · simp only [process_file, hcv, hpl, hit, htc]
                        omega
                      · intro items2 hvv
                        exact Val.noConfusion hvv

/-- Witness for C4: a corpus with one two-message conversation and
one malformed item; counter and total both end at 2 although only
one backend call was made. -/
theorem C4_witness :
    (process_file (fun l => .ok l)
        (.vlist [.dict 0 [("conversations",
            .vlist [.dict 1 [("value", Val.s "a")], .dict 2 [("value", Val.s "")]])],
          .dict 3 []]) false 4).counter
      = (process_file (fun l => .ok l)
        (.vlist [.dict 0 [("conversations",
            .vlist [.dict 1 [("value", Val.s "a")], .dict 2 [("value", Val.s "")]])],
          .dict 3 []]) false 4).total ∧
    (∀ items, (Val.vlist [.dict 0 [("conversations",
            .vlist [.dict 1 [("value", Val.s "a")], .dict 2 [("value", Val.s "")]])],
          .dict 3 []]) = .vlist items →
      totalMessages items = .ok (process_file (fun l => .ok l)
        (.vlist [.dict 0 [("conversations",
            .vlist [.dict 1 [("value", Val.s "a")], .dict 2 [("value", Val.s "")]])],
          .dict 3 []]) false 4).total) :=
  C4_progress_total (fun l => .ok l)
    (.vlist [.dict 0 [("conversations",
        .vlist [.dict 1 [("value", Val.s "a")], .dict 2 [("value", Val.s "")]])],
      .dict 3 []]) false 4
    (some (.vlist [.dict 6 [("conversations",
        .vlist [.dict 4 [("value", Val.s "a"), ("translated_value", Val.s "a")],
          .dict 5 [("value", Val.s "")]])], .dict 3 []])) rfl

/-- C6: in a list corpus, an item (a record) lacking the
`conversations` key is passed through unchanged at its original
position, the warning counter is positive, and the warning branch by
itself never aborts a run: a corpus consisting of such an item alone
completes with a successful outcome containing the item verbatim. -/
theorem C6_passthrough_warning (f : Backend) (items : List Val) (hasOut : Bool)
    (nid : Nat) (res : Val)
    (h : (process_file f (.vlist items) hasOut nid).outcome = .ok (some res))
    (i o : Nat) (e : List (String × Val))
    (hi : items.get? i = some (.dict o e)) (hcv : dictGet e "conversations" = none) :
    (∃ out, res = .vlist out ∧ out.get? i = some (.dict o e)) ∧
    1 ≤ (process_file f (.vlist items) hasOut nid).warnings ∧
    (process_file f (.vlist [.dict o e]) hasOut nid).outcome
      = .ok (some (.vlist [.dict o e])) := by
  cases hT : totalMessages items with
  | error er =>
      simp only [process_file, hT] at h
      exact Except.noConfusion h
  | ok T =>
      rcases hr : processItems f items nid with ⟨rres, nid2, cs, tk, w⟩
      cases rres with
      | error er =>
          simp only [process_file, hT, hr] at h
          exact Except.noConfusion h
      | ok out =>
          have hres : res = .vlist out := by
            simp only [process_file, hT, hr] at h
            simpa using h.symm
          obtain ⟨_, _, hpt⟩ := processItems_ok_spec f items nid out (by rw [hr])
          refine ⟨?_, ?_, ?_⟩
          · obtain ⟨o', e', hde, hcase⟩ := hpt i _ hi
            obtain ⟨rfl, rfl⟩ : o = o' ∧ e = e' := by
              injection hde with h1 h2
              exact ⟨h1, h2⟩
            cases hcase with
            | inl hl => exact ⟨out, hres, hl.2⟩
            | inr hrr =>
                obtain ⟨cv, _, _, hcv', _⟩ := hrr
                rw [hcv] at hcv'
                exact Option.noConfusion hcv'
          · have hw : w = items.countP lacksConversations := by
              have := processItems_warnings_count f items nid out (by rw [hr])
              rw [hr] at this
              simpa using this
            have hmem : (Val.dict o e) ∈ items := List.get?_mem hi
            have hpos : 0 < items.countP lacksConversations := by
              rw [List.countP_pos_iff]
              exact ⟨Val.dict o e, hmem, by simp [lacksConversations, hcv]⟩
            simp only [process_file, hT, hr]
            omega
          · simp only [process_file, totalMessages, itemMsgCount, hcv, processItems]

/-- Witness for C6 at the spec's Example 3 corpus. -/
theorem C6_witness :
    (∃ out, (Val.vlist [Val.dict 0 [("id", Val.s "x")]]) = Val.vlist out ∧
      out.get? 0 = some (Val.dict 0 [("id", Val.s "x")])) ∧
    1 ≤ (process_file (fun l => .ok l)
        (.vlist [.dict 0 [("id", Val.s "x")]]) false 1).warnings ∧
    (process_file (fun l => .ok l)
        (.vlist [.dict 0 [("id", Val.s "x")]]) false 1).outcome
      = .ok (some (.vlist [.dict 0 [("id", Val.s "x")]])) :=
  C6_passthrough_warning (fun l => .ok l) [.dict 0 [("id", Val.s "x")]] false 1
    (.vlist [.dict 0 [("id", Val.s "x")]]) rfl 0 0 [("id", Val.s "x")] rfl rfl

/-- C7: the loaded value's shape decides everything: a sequence is
processed as ListShape (a list result), a mapping with the
`conversations` key as SingleShape (exactly one record), and any
other value is Unsupported: `process_file` returns normally with no
result, writes nothing, calls no backend and ticks no progress. -/
theorem C7_shape_classification (f : Backend) (data : Val) (hasOut : Bool) (nid : Nat) :
    ((∀ items, data ≠ .vlist items) →
     (∀ o e, data = .dict o e → dictGet e "conversations" = none) →
       process_file f data hasOut nid = ⟨.ok none, none, [], 0, 0, 0, nid⟩) ∧
    (∀ o e, data = .dict o e → (dictGet e "conversations").isSome →
      ∀ res, (process_file f data hasOut nid).outcome = .ok (some res) →
        ∃ o2 e2, res = .dict o2 e2) ∧
    (∀ items, data = .vlist items →
      ∀ res, (process_file f data hasOut nid).outcome = .ok (some res) →
        ∃ out, res = .vlist out ∧ out.length = items.length) := by
  refine ⟨?_, ?_, ?_⟩
  · intro hnl hnd
    cases data with
    | s str => rfl
    | atom a b => rfl
    | vlist items => exact absurd rfl (hnl items)
    | dict o e =>
        have hcv := hnd o e rfl
        simp only [process_file, hcv]
  · intro o e hde _ res h
    subst hde
    obtain ⟨cv, msgs, tmsgs, _, _, _, hres, _, _⟩ :=
      run_single_correspondence f o e hasOut nid res h
    exact ⟨_, _, hres⟩
  · intro items hde res h
    subst hde
    obtain ⟨out, hres, hlen, _⟩ := run_list_correspondence f items hasOut nid res h
    exact ⟨out, hres, hlen⟩

/-- Witness for C7: an atom (e.g. a number) is an unsupported corpus:
no result, nothing written, no backend call. -/
theorem C7_witness :
    process_file (fun l => .ok l) (.atom 9 true) false 7
      = ⟨.ok none, none, [], 0, 0, 0, 7⟩ :=
  (C7_shape_classification (fun l => .ok l) (.atom 9 true) false 7).1
    (fun _ h => Val.noConfusion h) (fun _ _ h => Val.noConfusion h)

/-- Helper for C8: if a prefix of the item loop succeeds and the
remainder raises, the whole loop raises that same error, and its
backend calls are the prefix's calls followed by the remainder's —
no call is issued past the failure. -/
theorem processItems_append_error (f : Backend) (l1 l2 : List Val) (nid : Nat)
    (out1 : List Val) (h1 : (processItems f l1 nid).res = .ok out1) (er : String)
    (h2 : (processItems f l2 ((processItems f l1 nid).nid)).res = .error er) :
    (processItems f (l1 ++ l2) nid).res = .error er ∧
    (processItems f (l1 ++ l2) nid).calls =
      (processItems f l1 nid).calls ++
        (processItems f l2 ((processItems f l1 nid).nid)).calls := by
  induction l1 generalizing nid out1 with
  | nil =>
      simp only [processItems] at h2
      simp only [List.nil_append, processItems]
      exact ⟨h2, by simp⟩
  | cons a t ih =>
      cases a with
      | s str => simp only [processItems] at h1; exact Except.noConfusion h1
      | atom x b => simp only [processItems] at h1; exact Except.noConfusion h1
      | vlist l => simp only [processItems] at h1; exact Except.noConfusion h1
      | dict o e =>
          cases hcv : dictGet e "conversations" with
          | none =>
              rcases hr : processItems f t nid with ⟨rres, rnid, rcs, rtk, rw2⟩
              cases rres with
              | error e2 =>
                  simp only [processItems, hcv, hr] at h1
                  exact Except.noConfusion h1
              | ok outt =>
                  rw [show (processItems f (Val.dict o e :: t) nid).nid = rnid by
                    simp [processItems, hcv, hr]] at h2
                  obtain ⟨ihres, ihcalls⟩ := ih nid outt (by rw [hr])
                    (by simp only [hr]; exact h2)
                  rcases hrr : processItems f (t ++ l2) nid
                    with ⟨bres, bnid, bcs, btk, bw⟩
                  simp only [hrr] at ihres ihcalls
                  subst ihres
                  simp only [hr] at ihcalls
                  constructor
                  · simp only [List.cons_append, processItems, hcv]
                    simp only [List.append_eq, hrr]
                  · simp only [List.cons_append, processItems, hcv, hr]
                    simp only [List.append_eq, hrr]
                    exact ihcalls
          | some cv =>
              cases hit : pyIter cv with
              | error e2 =>
                  simp only [processItems, hcv, hit] at h1
                  exact Except.noConfusion h1
              | ok msgs =>
                  rcases htc : translate_conversation f msgs nid
                    with ⟨tres, tnid, tcs, ttk⟩
                  cases tres with
                  | error e2 =>
                      simp only [processItems, hcv, hit, htc] at h1
                      exact Except.noConfusion h1
                  | ok tmsgs =>
                      rcases hr : processItems f t (tnid + 1)
                        with ⟨rres, rnid, rcs, rtk, rw2⟩
                      cases rres with
                      | error e2 =>
                          simp only [processItems, hcv, hit, htc, hr] at h1
                          exact Except.noConfusion h1
                      | ok outt =>
                          rw [show (processItems f (Val.dict o e :: t) nid).nid = rnid by
                            simp [processItems, hcv, hit, htc, hr]] at h2
                          obtain ⟨ihres, ihcalls⟩ := ih (tnid + 1) outt (by rw [hr])
                            (by simp only [hr]; exact h2)
                          rcases hrr : processItems f (t ++ l2) (tnid + 1)
                            with ⟨bres, bnid, bcs, btk, bw⟩
                          simp only [hrr] at ihres ihcalls
                          subst ihres
                          simp only [hr] at ihcalls
                          constructor
                          · simp only [List.cons_append, processItems, hcv, hit, htc]
                            simp only [List.append_eq, hrr]
                          · simp only [List.cons_append, processItems, hcv, hit, htc, hr]
                            simp only [List.append_eq, hrr]
                            rw [ihcalls]
                            simp [List.append_assoc]

/-- C8: a backend failure is not caught anywhere.  If the translation
of a single-shape corpus raises, `process_file` propagates the very
same error; if it raises at some item of a list corpus whose earlier
items processed fine, `process_file` propagates that error, the
backend is never called for the remaining items (the run's calls end
with the failing conversation's), and — as whenever `process_file`
ends in an error — nothing at all has been written to the output file:
the already-processed conversations are not persisted. -/
theorem C8_failfast (f : Backend) (data : Val) (hasOut : Bool) (nid : Nat) :
    (∀ er, (process_file f data hasOut nid).outcome = .error er →
      (process_file f data hasOut nid).written = none) ∧
    (∀ o e cv msgs er, data = .dict o e →
      dictGet e "conversations" = some cv → pyIter cv = .ok msgs →
      (translate_conversation f msgs nid).res = .error er →
      (process_file f data hasOut nid).outcome = .error er) ∧
    (∀ items pre o e cv msgs post er outPre T, data = .vlist items →
      items = pre ++ .dict o e :: post →
      totalMessages items = .ok T →
      (processItems f pre nid).res = .ok outPre →
      dictGet e "conversations" = some cv → pyIter cv = .ok msgs →
      (translate_conversation f msgs ((processItems f pre nid).nid)).res = .error er →
      (process_file f data hasOut nid).outcome = .error er ∧
      (process_file f data hasOut nid).written = none ∧
      (process_file f data hasOut nid).calls =
        (processItems f pre nid).calls ++
          (translate_conversation f msgs ((processItems f pre nid).nid)).calls) := by
  refine ⟨?_, ?_, ?_⟩
  · intro er h
    cases data with
    | s str => simp [process_file] at h
    | atom a b => simp [process_file] at h
    | vlist items =>
        cases hT : totalMessages items with
        | error e2 => simp only [process_file, hT]
        | ok T =>
            rcases hr : processItems f items nid with ⟨rres, nid2, cs, tk, w⟩
            cases rres with
            | error e2 => simp only [process_file, hT, hr]
            | ok out =>
                simp only [process_file, hT, hr] at h
                exact Except.noConfusion h
    | dict o e =>
        cases hcv : dictGet e "conversations" with
        | none =>
            simp only [process_file, hcv] at h
            exact Except.noConfusion h
        | some cv =>
            cases hpl : pyLen cv with
            | error e2 => simp only [process_file, hcv, hpl]
            | ok T =>
                cases hit : pyIter cv with
                | error e2 => simp only [process_file, hcv, hpl, hit]
                | ok msgs =>
                    rcases htc : translate_conversation f msgs nid with ⟨tres, nid2, cs, tk⟩
                    cases tres with
                    | error e2 => simp only [process_file, hcv, hpl, hit, htc]
                    | ok tmsgs =>
                        simp only [process_file, hcv, hpl, hit, htc] at h
                        exact Except.noConfusion h
  · intro o e cv msgs er hde hcv hit htc
    subst hde
    have hpl := pyIter_pyLen cv msgs hit
    rcases htc2 : translate_conversation f msgs nid with ⟨tres, nid2, cs, tk⟩
    cases tres with
    | ok tmsgs =>
        rw [htc2] at htc
        simp at htc
    | error e2 =>
        rw [htc2] at htc
        simp only at htc
        obtain rfl : e2 = er := by injection htc
        simp only [process_file, hcv, hpl, hit, htc2]
  · intro items pre o e cv msgs post er outPre T hde hsplit hT hpre hcv hit htc
    subst hde
    subst hsplit
    rcases htc2 : translate_conversation f msgs ((processItems f pre nid).nid)
      with ⟨tres, tnid, tcs, ttk⟩
    cases tres with
    | ok tmsgs =>
        rw [htc2] at htc
        simp at htc
    | error e2 =>
        rw [htc2] at htc
        simp only at htc
        obtain rfl : er = e2 := by
          injection htc with hh
          exact hh.symm
        have hhead_res :
            (processItems f (Val.dict o e :: post) ((processItems f pre nid).nid)).res
              = .error er := by
          simp only [processItems, hcv, hit, htc2]
        have hhead_calls :
            (processItems f (Val.dict o e :: post) ((processItems f pre nid).nid)).calls
              = tcs := by
          simp only [processItems, hcv, hit, htc2]
        obtain ⟨happ_res, happ_calls⟩ :=
          processItems_append_error f pre (Val.dict o e :: post) nid outPre hpre er
            hhead_res
        rcases hall : processItems f (pre ++ Val.dict o e :: post) nid
          with ⟨ares, anid, acs, atk, aw⟩
        simp only [hall] at happ_res happ_calls
        subst happ_res
        refine ⟨?_, ?_, ?_⟩
        · simp only [process_file, hT, hall]
        · simp only [process_file, hT, hall]
        · simp only [process_file, hT, hall, htc2]
          rw [happ_calls, hhead_calls]

/-- Witness for C8: a three-item list corpus whose backend fails on
the second conversation: the first is translated (one call), the run
then aborts with the backend's error, the third conversation is never
submitted, and nothing is written despite an output path being given. -/
theorem C8_witness :
    (process_file (fun l => if l = ["Bad"] then .error "boom" else .ok l)
        (.vlist [.dict 0 [("conversations", .vlist [.dict 1 [("value", Val.s "Ok")]])],
          .dict 2 [("conversations", .vlist [.dict 3 [("value", Val.s "Bad")]])],
          .dict 4 [("conversations", .vlist [.dict 5 [("value", Val.s "Never")]])]])
        true 6).outcome = .error "boom" ∧
    (process_file (fun l => if l = ["Bad"] then .error "boom" else .ok l)
        (.vlist [.dict 0 [("conversations", .vlist [.dict 1 [("value", Val.s "Ok")]])],
          .dict 2 [("conversations", .vlist [.dict 3 [("value", Val.s "Bad")]])],
          .dict 4 [("conversations", .vlist [.dict 5 [("value", Val.s "Never")]])]])
        true 6).written = none ∧
    (process_file (fun l => if l = ["Bad"] then .error "boom" else .ok l)
        (.vlist [.dict 0 [("conversations", .vlist [.dict 1 [("value", Val.s "Ok")]])],
          .dict 2 [("conversations", .vlist [.dict 3 [("value", Val.s "Bad")]])],
          .dict 4 [("conversations", .vlist [.dict 5 [("value", Val.s "Never")]])]])
        true 6).calls = [["Ok"], ["Bad"]] :=
  (C8_failfast (fun l => if l = ["Bad"] then .error "boom" else .ok l)
      (.vlist [.dict 0 [("conversations", .vlist [.dict 1 [("value", Val.s "Ok")]])],
        .dict 2 [("conversations", .vlist [.dict 3 [("value", Val.s "Bad")]])],
        .dict 4 [("conversations", .vlist [.dict 5 [("value", Val.s "Never")]])]])
      true 6).2.2
    [.dict 0 [("conversations", .vlist [.dict 1 [("value", Val.s "Ok")]])],
      .dict 2 [("conversations", .vlist [.dict 3 [("value", Val.s "Bad")]])],
      .dict 4 [("conversations", .vlist [.dict 5 [("value", Val.s "Never")]])]]
    [.dict 0 [("conversations", .vlist [.dict 1 [("value", Val.s "Ok")]])]]
    2 [("conversations", Val.vlist [.dict 3 [("value", Val.s "Bad")]])]
    (.vlist [.dict 3 [("value", Val.s "Bad")]])
    [.dict 3 [("value", Val.s "Bad")]]
    [.dict 4 [("conversations", .vlist [.dict 5 [("value", Val.s "Never")]])]]
    "boom"
    [.dict 7 [("conversations",
      .vlist [.dict 6 [("value", Val.s "Ok"), ("translated_value", Val.s "Ok")]])]]
    3 rfl rfl rfl rfl rfl rfl rfl

/-- C5: structure and order are preserved: a list corpus yields a
list with exactly as many records, each output record at its input
position (passed through when the item lacks `conversations`,
rebuilt around the translated message list otherwise, with as many
messages as the input in the same order — the j-th output message is
the processed form of the j-th input message); a single-shape corpus
yields exactly one record. -/
theorem C5_structure_order (f : Backend) (data : Val) (hasOut : Bool) (nid : Nat) :
    (∀ items res, data = .vlist items →
      (process_file f data hasOut nid).outcome = .ok (some res) →
      ∃ out, res = .vlist out ∧ out.length = items.length ∧
        ∀ i o e, items.get? i = some (.dict o e) →
          ((dictGet e "conversations" = none → out.get? i = some (.dict o e)) ∧
           (∀ cv msgs, dictGet e "conversations" = some cv → pyIter cv = .ok msgs →
             ∃ o2 tmsgs, out.get? i
                 = some (.dict o2 (dictSet e "conversations" (.vlist tmsgs))) ∧
               tmsgs.length = msgs.length ∧
               ∀ j m, msgs.get? j = some m →
                 ∃ n, tmsgs.get? j = ((translateMsg f m n).res).toOption))) ∧
    (∀ o e res, data = .dict o e →
      (process_file f data hasOut nid).outcome = .ok (some res) →
      ∃ o2 cv msgs tmsgs, dictGet e "conversations" = some cv ∧
        pyIter cv = .ok msgs ∧
        res = .dict o2 (dictSet e "conversations" (.vlist tmsgs)) ∧
        tmsgs.length = msgs.length ∧
        ∀ j m, msgs.get? j = some m →
          ∃ n, tmsgs.get? j = ((translateMsg f m n).res).toOption) := by
  constructor
  · intro items res hde h
    subst hde
    obtain ⟨out, hres, hlen, hpt⟩ := run_list_correspondence f items hasOut nid res h
    refine ⟨out, hres, hlen, ?_⟩
    intro i o e hi
    obtain ⟨o', e', hde', hcase⟩ := hpt i _ hi
    obtain ⟨rfl, rfl⟩ : o = o' ∧ e = e' := by
      injection hde' with h1 h2
      exact ⟨h1, h2⟩
    constructor
    · intro hcv
      cases hcase with
      | inl hl => exact hl.2
      | inr hrr =>
          obtain ⟨cv, _, _, _, hcv', _⟩ := hrr
          rw [hcv] at hcv'
          exact Option.noConfusion hcv'
    · intro cv msgs hcv hit
      cases hcase with
      | inl hl =>
          rw [hcv] at hl
          exact Option.noConfusion hl.1
      | inr hrr =>
          obtain ⟨cv0, msgs0, n, tmsgs, hcv0, _, hit0, _, hout, blen, bpt⟩ := hrr
          have hcveq : cv = cv0 := by
            rw [hcv] at hcv0
            injection hcv0 with hh
          subst hcveq
          have hmeq : msgs = msgs0 := by
            rw [hit] at hit0
            injection hit0 with hh
          subst hmeq
          exact ⟨n + msgs.length, tmsgs, hout, blen,
            fun j m hj => ⟨n + j, bpt j m hj⟩⟩
  · intro o e res hde h
    subst hde
    obtain ⟨cv, msgs, tmsgs, hcv, hit, _, hres, blen, bpt⟩ :=
      run_single_correspondence f o e hasOut nid res h
    exact ⟨nid + msgs.length, cv, msgs, tmsgs, hcv, hit, hres, blen,
      fun j m hj => ⟨nid + j, bpt j m hj⟩⟩

/-- Witness for C5 at a two-item list corpus (one conversation of
two messages, one pass-through item). -/
theorem C5_witness :
    ∃ out, (Val.vlist [.dict 6 [("conversations",
        .vlist [.dict 4 [("value", Val.s "a"), ("translated_value", Val.s "a")],
          .dict 5 [("value", Val.s "")]])], .dict 3 []]) = Val.vlist out ∧
      out.length = ([.dict 0 [("conversations",
        .vlist [.dict 1 [("value", Val.s "a")], .dict 2 [("value", Val.s "")]])],
        .dict 3 []] : List Val).length ∧
      ∀ i o e, ([.dict 0 [("conversations",
          .vlist [.dict 1 [("value", Val.s "a")], .dict 2 [("value", Val.s "")]])],
          .dict 3 []] : List Val).get? i = some (.dict o e) →
        ((dictGet e "conversations" = none → out.get? i = some (.dict o e)) ∧
         (∀ cv msgs, dictGet e "conversations" = some cv → pyIter cv = .ok msgs →
           ∃ o2 tmsgs, out.get? i
               = some (.dict o2 (dictSet e "conversations" (.vlist tmsgs))) ∧
             tmsgs.length = msgs.length ∧
             ∀ j m, msgs.get? j = some m →
               ∃ n, tmsgs.get? j = ((translateMsg (fun l => .ok l) m n).res).toOption)) :=
  (C5_structure_order (fun l => .ok l)
      (.vlist [.dict 0 [("conversations",
        .vlist [.dict 1 [("value", Val.s "a")], .dict 2 [("value", Val.s "")]])],
        .dict 3 []]) false 4).1
    [.dict 0 [("conversations",
        .vlist [.dict 1 [("value", Val.s "a")], .dict 2 [("value", Val.s "")]])],
      .dict 3 []]
    (.vlist [.dict 6 [("conversations",
        .vlist [.dict 4 [("value", Val.s "a"), ("translated_value", Val.s "a")],
          .dict 5 [("value", Val.s "")]])], .dict 3 []]) rfl rfl

/-- Helper for C9 and C3: a successful per-position translation entry
relates each output message's entries to the input message's. -/
theorem tmsg_get_fields (f : Backend) (msgs tmsgs : List Val) (n j mo : Nat)
    (me : List (String × Val))
    (blen : tmsgs.length = msgs.length)
    (bpt : ∀ j m, msgs.get? j = some m →
      tmsgs.get? j = ((translateMsg f m (n + j)).res).toOption)
    (hj : msgs.get? j = some (.dict mo me)) :
    ∃ me2, tmsgs.get? j = some (.dict (n + j) me2) ∧
      ∀ k, k ≠ "translated_value" → dictGet me2 k = dictGet me k := by
  have hpt := bpt j _ hj
  cases hres : (translateMsg f (.dict mo me) (n + j)).res with
  | error er =>
      rw [hres] at hpt
      have hjlt : j < msgs.length := by
        rcases List.get?_eq_some.mp hj with ⟨hl, _⟩
        exact hl
      have : tmsgs.get? j ≠ none := by
        intro hn
        rw [List.get?_eq_none] at hn
        omega
      exact absurd hpt (by simpa [Except.toOption] using this)
  | ok tm =>
      rw [hres] at hpt
      obtain ⟨o1, e1, e2, hde, hstep, htm, _⟩ :=
        translateMsg_ok_inv f (.dict mo me) (n + j) tm hres
      obtain ⟨rfl, rfl⟩ : mo = o1 ∧ me = e1 := by
        injection hde with h1 h2
        exact ⟨h1, h2⟩
      refine ⟨e2, by rw [hpt, htm]; rfl, ?_⟩
      intro k hk
      exact msgStep_ok_preserves f me e2 _ hstep k hk

/-- C9: unknown fields survive: every output conversation record
agrees with its input record on every field other than
`conversations`, and every output message agrees with its input
message on every field other than the added `translated_value` —
for both corpus shapes. -/
theorem C9_unknown_fields (f : Backend) (data : Val) (hasOut : Bool) (nid : Nat) :
    (∀ items res, data = .vlist items →
      (process_file f data hasOut nid).outcome = .ok (some res) →
      ∃ out, res = .vlist out ∧
        ∀ i o e, items.get? i = some (.dict o e) →
          ∃ o2 e2, out.get? i = some (.dict o2 e2) ∧
            (∀ k, k ≠ "conversations" → dictGet e2 k = dictGet e k) ∧
            (∀ cv msgs j mo me, dictGet e "conversations" = some cv →
              pyIter cv = .ok msgs → msgs.get? j = some (.dict mo me) →
              ∃ tmsgs me2, dictGet e2 "conversations" = some (.vlist tmsgs) ∧
                (∃ mo2, tmsgs.get? j = some (.dict mo2 me2)) ∧
                ∀ k, k ≠ "translated_value" → dictGet me2 k = dictGet me k)) ∧
    (∀ o e res, data = .dict o e →
      (process_file f data hasOut nid).outcome = .ok (some res) →
      ∃ o2 e2, res = .dict o2 e2 ∧
        (∀ k, k ≠ "conversations" → dictGet e2 k = dictGet e k) ∧
        (∀ cv msgs j mo me, dictGet e "conversations" = some cv →
          pyIter cv = .ok msgs → msgs.get? j = some (.dict mo me) →
          ∃ tmsgs me2, dictGet e2 "conversations" = some (.vlist tmsgs) ∧
            (∃ mo2, tmsgs.get? j = some (.dict mo2 me2)) ∧
            ∀ k, k ≠ "translated_value" → dictGet me2 k = dictGet me k)) := by
  constructor
  · intro items res hde h
    subst hde
    obtain ⟨out, hres, _, hpt⟩ := run_list_correspondence f items hasOut nid res h
    refine ⟨out, hres, ?_⟩
    intro i o e hi
    obtain ⟨o', e', hde', hcase⟩ := hpt i _ hi
    obtain ⟨rfl, rfl⟩ : o = o' ∧ e = e' := by
      injection hde' with h1 h2
      exact ⟨h1, h2⟩
    cases hcase with
    | inl hl =>
        refine ⟨o, e, hl.2, fun k _ => rfl, ?_⟩
        intro cv msgs j mo me hcv
        rw [hl.1] at hcv
        exact absurd hcv (Option.noConfusion)
    | inr hrr =>
        obtain ⟨cv0, msgs0, n, tmsgs, hcv0, _, hit0, _, hout, blen, bpt⟩ := hrr
        refine ⟨n + msgs0.length, dictSet e "conversations" (.vlist tmsgs), hout,
          fun k hk => dictGet_dictSet_ne e "conversations" k _ hk, ?_⟩
        intro cv msgs j mo me hcv hit hj
        have hcveq : cv = cv0 := by
          rw [hcv] at hcv0
          injection hcv0 with hh
        subst hcveq
        have hmeq : msgs = msgs0 := by
          rw [hit] at hit0
          injection hit0 with hh
        subst hmeq
        obtain ⟨me2, hjget, hpres⟩ := tmsg_get_fields f msgs tmsgs n j mo me blen bpt hj
        exact ⟨tmsgs, me2, dictGet_dictSet_self e "conversations" (.vlist tmsgs),
          ⟨n + j, hjget⟩, hpres⟩
  · intro o e res hde h
    subst hde
    obtain ⟨cv0, msgs0, tmsgs, hcv0, hit0, _, hres, blen, bpt⟩ :=
      run_single_correspondence f o e hasOut nid res h
    refine ⟨nid + msgs0.length, dictSet e "conversations" (.vlist tmsgs), hres,
      fun k hk => dictGet_dictSet_ne e "conversations" k _ hk, ?_⟩
    intro cv msgs j mo me hcv hit hj
    have hcveq : cv = cv0 := by
      rw [hcv] at hcv0
      injection hcv0 with hh
    subst hcveq
    have hmeq : msgs = msgs0 := by
      rw [hit] at hit0
      injection hit0 with hh
    subst hmeq
    obtain ⟨me2, hjget, hpres⟩ := tmsg_get_fields f msgs tmsgs nid j mo me blen bpt hj
    exact ⟨tmsgs, me2, dictGet_dictSet_self e "conversations" (.vlist tmsgs),
      ⟨nid + j, hjget⟩, hpres⟩

/-- Witness for C9: an item with an `id` field and a message with a
`from` field keep both verbatim. -/
theorem C9_witness :
    ∃ out, (Val.vlist [.dict 3 [("id", Val.s "1"),
        ("conversations", .vlist [.dict 2 [("from", Val.s "human"),
          ("value", Val.s "Hello"), ("translated_value", Val.s "Hello")]])]])
        = Val.vlist out ∧
      ∀ i o e, ([.dict 0 [("id", Val.s "1"), ("conversations",
          .vlist [.dict 1 [("from", Val.s "human"), ("value", Val.s "Hello")]])]]
            : List Val).get? i = some (.dict o e) →
        ∃ o2 e2, out.get? i = some (.dict o2 e2) ∧
          (∀ k, k ≠ "conversations" → dictGet e2 k = dictGet e k) ∧
          (∀ cv msgs j mo me, dictGet e "conversations" = some cv →
            pyIter cv = .ok msgs → msgs.get? j = some (.dict mo me) →
            ∃ tmsgs me2, dictGet e2 "conversations" = some (.vlist tmsgs) ∧
              (∃ mo2, tmsgs.get? j = some (.dict mo2 me2)) ∧
              ∀ k, k ≠ "translated_value" → dictGet me2 k = dictGet me k) :=
  (C9_unknown_fields (fun l => .ok l)
      (.vlist [.dict 0 [("id", Val.s "1"), ("conversations",
        .vlist [.dict 1 [("from", Val.s "human"), ("value", Val.s "Hello")]])]])
      false 2).1
    [.dict 0 [("id", Val.s "1"), ("conversations",
      .vlist [.dict 1 [("from", Val.s "human"), ("value", Val.s "Hello")]])]]
    (.vlist [.dict 3 [("id", Val.s "1"),
      ("conversations", .vlist [.dict 2 [("from", Val.s "human"),
        ("value", Val.s "Hello"), ("translated_value", Val.s "Hello")]])]])
    rfl rfl

/-- The top-level object id of an item of a list is among the list's
object ids. -/
theorem oid_head_mem (items : List Val) (i o : Nat) (e : List (String × Val))
    (hi : items.get? i = some (.dict o e)) : o ∈ oidsOfList items := by
  induction items generalizing i with
  | nil => simp at hi
  | cons a t ih =>
      cases i with
      | zero =>
          simp only [List.get?] at hi
          obtain rfl : a = Val.dict o e := by injection hi
          simp [oidsOfList, oidsOf]
      | succ i =>
          simp only [List.get?] at hi
          have := ih i hi
          simp [oidsOfList, this]

/-- C3 counterexample: a list corpus whose only item lacks the
`conversations` key.  The run succeeds and returns the very same
record (same object id 0) inside the output, so the output is aliased
to the input — mutating it mutates the input — refuting the claim
that every output record, including passed-through ListShape items,
is a fresh unaliased copy. -/
theorem C3_counterexample :
    ¬ outputFreshFrom (fun l => .ok l)
      (.vlist [.dict 0 [("id", Val.atom 7 true)]]) false 1 := by
  intro hcl
  have hmem : (0 : Nat) ∈ oidsOf (.vlist [.dict 0 [("id", Val.atom 7 true)]]) := by
    simp [oidsOf, oidsOfList, oidsOfEntries]
  exact hcl (.vlist [.dict 0 [("id", Val.atom 7 true)]]) rfl 0 hmem hmem

/-- Helper for C3: every message produced by a successful
per-conversation translation is a dict whose object id was allocated
at or after the counter the conversation started with. -/
theorem tmsgs_fresh (f : Backend) (msgs tmsgs : List Val) (n nid : Nat) (hn : nid ≤ n)
    (blen : tmsgs.length = msgs.length)
    (bpt : ∀ j m, msgs.get? j = some m →
      tmsgs.get? j = ((translateMsg f m (n + j)).res).toOption) :
    ∀ tm ∈ tmsgs, ∃ mo me, tm = .dict mo me ∧ nid ≤ mo := by
  intro tm htm
  obtain ⟨j, hjget⟩ := List.get?_of_mem htm
  have hjlt : j < tmsgs.length := by
    rcases List.get?_eq_some.mp hjget with ⟨hl, _⟩
    exact hl
  have hjm : msgs.get? j = some (msgs.get ⟨j, by omega⟩) :=
    List.get?_eq_get (by omega)
  have hpt2 := bpt j _ hjm
  rw [hjget] at hpt2
  cases hres2 : (translateMsg f (msgs.get ⟨j, by omega⟩) (n + j)).res with
  | error er =>
      rw [hres2] at hpt2
      exact absurd hpt2 (by simp [Except.toOption])
  | ok tm2 =>
      rw [hres2] at hpt2
      obtain rfl : tm = tm2 := by
        simpa [Except.toOption] using hpt2
      obtain ⟨o1, e1, e2, _, _, htm2, _⟩ :=
        translateMsg_ok_inv f _ (n + j) tm hres2
      exact ⟨n + j, e2, htm2, by omega⟩

/-- C3 (amended): records that go through the translation path are
fresh, for both corpus shapes — the rebuilt conversation records and
all their messages carry object ids distinct from every id in the
input, so mutating them cannot change the input — but a ListShape
item lacking the `conversations` field is passed through as the very
same record, its id occurring in the input (and the per-record copies
are shallow). -/
theorem C3_amended_freshness (f : Backend) (data : Val) (hasOut : Bool) (nid : Nat)
    (hfresh : ∀ o2 ∈ oidsOf data, o2 < nid) :
    (∀ items res, data = .vlist items →
      (process_file f data hasOut nid).outcome = .ok (some res) →
      ∃ out, res = .vlist out ∧
        ∀ i o e, items.get? i = some (.dict o e) →
          ((dictGet e "conversations" = none →
              out.get? i = some (.dict o e) ∧ o ∈ oidsOf data) ∧
           (∀ cv msgs, dictGet e "conversations" = some cv → pyIter cv = .ok msgs →
              ∃ o2 tmsgs,
                out.get? i = some (.dict o2 (dictSet e "conversations" (.vlist tmsgs))) ∧
                o2 ∉ oidsOf data ∧
                ∀ tm ∈ tmsgs, ∃ mo me, tm = .dict mo me ∧
                  mo ∉ oidsOf data))) ∧
    (∀ o e res, data = .dict o e →
      (process_file f data hasOut nid).outcome = .ok (some res) →
      ∃ o2 cv msgs tmsgs, dictGet e "conversations" = some cv ∧
        pyIter cv = .ok msgs ∧
        res = .dict o2 (dictSet e "conversations" (.vlist tmsgs)) ∧
        o2 ∉ oidsOf data ∧
        ∀ tm ∈ tmsgs, ∃ mo me, tm = .dict mo me ∧ mo ∉ oidsOf data) := by
  constructor
  · intro items res hde h
    subst hde
    obtain ⟨out, hres, _, hpt⟩ := run_list_correspondence f items hasOut nid res h
    refine ⟨out, hres, ?_⟩
    intro i o e hi
    obtain ⟨o', e', hde', hcase⟩ := hpt i _ hi
    obtain ⟨rfl, rfl⟩ : o = o' ∧ e = e' := by
      injection hde' with h1 h2
      exact ⟨h1, h2⟩
    constructor
    · intro hcv
      cases hcase with
      | inl hl =>
          refine ⟨hl.2, ?_⟩
          have := oid_head_mem items i o e hi
          simpa [oidsOf] using this
      | inr hrr =>
          obtain ⟨cv, _, _, _, hcv', _⟩ := hrr
          rw [hcv] at hcv'
          exact Option.noConfusion hcv'
    · intro cv msgs hcv hit
      cases hcase with
      | inl hl =>
          rw [hcv] at hl
          exact Option.noConfusion hl.1
      | inr hrr =>
          obtain ⟨cv0, msgs0, n, tmsgs, hcv0, hn, hit0, _, hout, blen, bpt⟩ := hrr
          have hcveq : cv = cv0 := by
            rw [hcv] at hcv0
            injection hcv0 with hh
          subst hcveq
          have hmeq : msgs = msgs0 := by
            rw [hit] at hit0
            injection hit0 with hh
          subst hmeq
          refine ⟨n + msgs.length, tmsgs, hout, ?_, ?_⟩
          · intro hmem
            have := hfresh _ hmem
            omega
          · intro tm htm
            obtain ⟨mo, me, htm2, hmo⟩ := tmsgs_fresh f msgs tmsgs n nid hn blen bpt tm htm
            refine ⟨mo, me, htm2, ?_⟩
            intro hmem
            have := hfresh _ hmem
            omega
  · intro o e res hde h
    subst hde
    obtain ⟨cv, msgs, tmsgs, hcv, hit, _, hres, blen, bpt⟩ :=
      run_single_correspondence f o e hasOut nid res h
    refine ⟨nid + msgs.length, cv, msgs, tmsgs, hcv, hit, hres, ?_, ?_⟩
    · intro hmem
      have := hfresh _ hmem
      omega
    · intro tm htm
      obtain ⟨mo, me, htm2, hmo⟩ :=
        tmsgs_fresh f msgs tmsgs nid nid (le_refl nid) blen bpt tm htm
      refine ⟨mo, me, htm2, ?_⟩
      intro hmem
      have := hfresh _ hmem
      omega

/-- Witness for C3 (amended): a two-item list corpus (rebuilt item
and message get fresh ids 4 and 3, the pass-through item keeps input
id 2) and a single-shape corpus (fresh ids 3 and 2). -/
theorem C3_amended_witness :
    (∃ out, (Val.vlist [.dict 4 [("conversations",
        .vlist [.dict 3 [("value", Val.s "Hi"), ("translated_value", Val.s "Hi")]])],
        .dict 2 []]) = Val.vlist out ∧
      ∀ i o e, ([.dict 0 [("conversations", .vlist [.dict 1 [("value", Val.s "Hi")]])],
          .dict 2 []] : List Val).get? i = some (.dict o e) →
        ((dictGet e "conversations" = none →
            out.get? i = some (.dict o e) ∧
            o ∈ oidsOf (.vlist [.dict 0 [("conversations",
              .vlist [.dict 1 [("value", Val.s "Hi")]])], .dict 2 []])) ∧
         (∀ cv msgs, dictGet e "conversations" = some cv → pyIter cv = .ok msgs →
            ∃ o2 tmsgs,
              out.get? i = some (.dict o2 (dictSet e "conversations" (.vlist tmsgs))) ∧
              o2 ∉ oidsOf (.vlist [.dict 0 [("conversations",
                .vlist [.dict 1 [("value", Val.s "Hi")]])], .dict 2 []]) ∧
              ∀ tm ∈ tmsgs, ∃ mo me, tm = .dict mo me ∧
                mo ∉ oidsOf (.vlist [.dict 0 [("conversations",
                  .vlist [.dict 1 [("value", Val.s "Hi")]])], .dict 2 []])))) ∧
    (∃ o2 cv msgs tmsgs,
      dictGet [("conversations", Val.vlist [.dict 1 [("value", Val.s "Hi")]])]
          "conversations" = some cv ∧
      pyIter cv = .ok msgs ∧
      (Val.dict 3 [("conversations",
        .vlist [.dict 2 [("value", Val.s "Hi"), ("translated_value", Val.s "Hi")]])])
        = .dict o2 (dictSet
            [("conversations", Val.vlist [.dict 1 [("value", Val.s "Hi")]])]
            "conversations" (.vlist tmsgs)) ∧
      o2 ∉ oidsOf (.dict 0 [("conversations",
        .vlist [.dict 1 [("value", Val.s "Hi")]])]) ∧
      ∀ tm ∈ tmsgs, ∃ mo me, tm = .dict mo me ∧
        mo ∉ oidsOf (.dict 0 [("conversations",
          .vlist [.dict 1 [("value", Val.s "Hi")]])])) :=
  ⟨(C3_amended_freshness (fun l => .ok l)
      (.vlist [.dict 0 [("conversations", .vlist [.dict 1 [("value", Val.s "Hi")]])],
        .dict 2 []])
      false 3
      (by
        intro o2 ho2
        simp [oidsOf, oidsOfList, oidsOfEntries] at ho2
        rcases ho2 with h | h | h <;> omega)).1
    [.dict 0 [("conversations", .vlist [.dict 1 [("value", Val.s "Hi")]])], .dict 2 []]
    (.vlist [.dict 4 [("conversations",
      .vlist [.dict 3 [("value", Val.s "Hi"), ("translated_value", Val.s "Hi")]])],
      .dict 2 []]) rfl rfl,
   (C3_amended_freshness (fun l => .ok l)
      (.dict 0 [("conversations", .vlist [.dict 1 [("value", Val.s "Hi")]])])
      false 2
      (by
        intro o2 ho2
        simp [oidsOf, oidsOfList, oidsOfEntries] at ho2
        rcases ho2 with h | h <;> omega)).2
    0 [("conversations", Val.vlist [.dict 1 [("value", Val.s "Hi")]])]
    (.dict 3 [("conversations",
      .vlist [.dict 2 [("value", Val.s "Hi"), ("translated_value", Val.s "Hi")]])])
    rfl rfl⟩
